import Mathlib

/-!
Verification of the persistence-diagram vectorization and metric engine
(`gtda/diagrams/_metrics.py`, `gtda/diagrams/features.py`,
`gtda/utils/validation.py`) against its natural-language specification.

Diagrams are shallowly embedded as lists of points.  After subdiagram
extraction with `remove_dim=True` a point is a (birth, death) pair of
rationals; a raw diagram point is a (birth, death, dimension) triple.
-/

namespace Gtda

/-- A (birth, death) point of a subdiagram (third column removed). -/
abbrev Point := ℚ × ℚ

/-- A single diagram sample: a list of (birth, death) points. -/
abbrev Sample := List Point

/-- `betti_curves` (`_metrics.py` lines 15-20): for each sample and each
grid value `t`, the number of points with `t >= birth` (`born`) and
`t < death` (`not_dead`); `alive` is their conjunction, summed over the
points axis. -/
def betti_curves (diagrams : List Sample) (sampling : List ℚ) :
    List (List ℕ) :=
  diagrams.map fun s =>
    sampling.map fun t => s.countP fun p => decide (p.1 ≤ t) && decide (t < p.2)

/-- Insert a value into a list that is sorted in non-increasing order. -/
def insertDesc (x : ℚ) : List ℚ → List ℚ
  | [] => [x]
  | y :: ys => if y ≤ x then x :: y :: ys else y :: insertDesc x ys

/-- Sort a list into non-increasing order.  Models the effect of
`fibers.partition(top_pos, axis=2)` over all of the top positions followed
by `np.flip` in `landscapes`: the selected trailing positions hold the
largest values in ascending order, so after the flip they are exactly the
leading values of the non-increasing sort. -/
def sortDesc (l : List ℚ) : List ℚ := l.foldr insertDesc []

/-- The tent ("fiber") values of the points of a sample at grid value `t`
(`_metrics.py` lines 26-28): for midpoint `m = (b+d)/2` and half-height
`h = (d-b)/2`, the value `max (h - |t - m|) 0`. -/
def tentValues (s : Sample) (t : ℚ) : List ℚ :=
  s.map fun p => max ((p.2 - p.1) / 2 - |t - (p.2 + p.1) / 2|) 0

/-- `landscapes` (`_metrics.py` lines 23-35).  Per sample, the output has
`n_layers` rows and one column per grid value; entry `(k, t)` is the
`(k+1)`-th largest tent value at `t` (partial sort of the top
`min(n_layers, n_points)` positions, flipped into descending order, i.e.
`take n_layers` of the non-increasing sort), zero-padded by
`max(0, n_layers - n_points)` further layers, where `n_points` is
`diagrams.shape[1]`. -/
def landscapes (diagrams : List Sample) (sampling : List ℚ)
    (nLayers : ℕ) : List (List (List ℚ)) :=
  let nPoints := diagrams.headI.length
  diagrams.map fun s =>
    (List.range nLayers).map fun k =>
      sampling.map fun t =>
        ((sortDesc (tentValues s t)).take nLayers ++
          List.replicate (nLayers - nPoints) 0).getD k 0

/-- An IEEE-754-style float value over exact rationals: NaN, a signed
infinity (`inf true` is positive infinity), or a finite value.  Used to
model the numpy expressions of `PersistenceEntropy._persistence_entropy`
that can produce non-finite intermediate values. -/
inductive FPQ where
  | nan : FPQ
  | inf : Bool → FPQ
  | fin : ℚ → FPQ
deriving DecidableEq

/-- An IEEE-754-style float value whose finite payload is a real number
(the result of `np.log` applied to a rational). -/
inductive FPR where
  | nan : FPR
  | inf : Bool → FPR
  | fin : ℝ → FPR

/-- IEEE division of two finite values (`X_lifespan / np.sum(X_lifespan)`
in `_persistence_entropy`): `0/0` is NaN, `a/0` for `a != 0` is a signed
infinity, otherwise the exact quotient. -/
def fpDiv (a b : ℚ) : FPQ :=
  if b = 0 then (if a = 0 then .nan else .inf (decide (0 < a)))
  else .fin (a / b)

/-- The composite `x * np.log(x)` of `_persistence_entropy` under IEEE
semantics, with `np.log` on positive finite inputs abstracted as `log`:
`nan * log nan = nan`; `(+inf) * log (+inf) = (+inf) * (+inf) = +inf`;
`(-inf) * log (-inf) = (-inf) * nan = nan`; for finite `q < 0`,
`q * log q = q * nan = nan`; for `q = 0`, `0 * log 0 = 0 * (-inf) = nan`;
for `q > 0` the finite product `q * log q`. -/
def xlogx (log : ℚ → ℝ) : FPQ → FPR
  | .nan => .nan
  | .inf true => .inf true
  | .inf false => .nan
  | .fin q =>
      if q < 0 then .nan
      else if q = 0 then .nan
      else .fin ((q : ℝ) * log q)

/-- The largest double-precision float, which `np.nan_to_num` substitutes
for a positive infinity. -/
def maxFloat : ℝ := 17976931348623157 * 10 ^ 292

/-- `np.nan_to_num`: NaN becomes 0, infinities become the extreme finite
floats, finite values pass through. -/
def nanToNum : FPR → ℝ
  | .nan => 0
  | .inf true => maxFloat
  | .inf false => -maxFloat
  | .fin r => r

/-- `PersistenceEntropy._persistence_entropy` (`features.py` lines 54-58),
per sample: lifespans `d - b` are normalized by their sum, then
`-sum(nan_to_num(p * log p))` is returned.  `np.log` on positive finite
inputs is the external parameter `log`; all special-value cases of the
composite `p * log p` are modelled by `xlogx`. -/
def entropyTerms (log : ℚ → ℝ) (s : Sample) : List ℝ :=
  (s.map fun p => p.2 - p.1).map fun x =>
    nanToNum (xlogx log (fpDiv x (s.map fun p => p.2 - p.1).sum))

/-- The negated sum of the `nan_to_num`-converted terms: the persistence
entropy of one sample. -/
def persistence_entropy (log : ℚ → ℝ) (s : Sample) : ℝ :=
  -(entropyTerms log s).sum

/-- C4: for every diagram sample and every grid point t of the sampling,
the Betti curve value at t equals the number of points with
birth <= t < death; for the grid {0,1,2}, the one-point diagram (0,1)
yields [1,0,0] and the one-point diagram (0,2) yields [1,1,0]. -/
theorem betti_curves_count_points (diagram : Sample) (sampling : List ℚ) :
    betti_curves [diagram] sampling =
      [sampling.map fun t =>
        (diagram.filter fun p => p.1 ≤ t ∧ t < p.2).length]
    ∧ betti_curves [[(0, 1)]] [0, 1, 2] = [[1, 0, 0]]
    ∧ betti_curves [[(0, 2)]] [0, 1, 2] = [[1, 1, 0]] := by
  refine ⟨?_, by decide, by decide⟩
  simp only [betti_curves, List.map_cons, List.map_nil, List.cons.injEq,
    and_true]
  refine List.map_congr_left fun t _ => ?_
  rw [List.countP_eq_length_filter]
  congr 1
  refine List.filter_congr fun p _ => ?_
  by_cases h1 : p.1 ≤ t <;> by_cases h2 : t < p.2 <;> simp [h1, h2]

theorem insertDesc_length (x : ℚ) (l : List ℚ) :
    (insertDesc x l).length = l.length + 1 := by
  induction l with
  | nil => rfl
  | cons y ys ih =>
    simp only [insertDesc]
    split <;> simp [ih]

theorem sortDesc_length (l : List ℚ) : (sortDesc l).length = l.length := by
  induction l with
  | nil => rfl
  | cons x xs ih =>
    show (insertDesc x (sortDesc xs)).length = xs.length + 1
    rw [insertDesc_length, ih]

theorem insertDesc_append_zeros (A : List ℚ) (m : ℕ) (x : ℚ) (hx : 0 ≤ x) :
    insertDesc x (A ++ List.replicate m 0) =
      insertDesc x A ++ List.replicate m 0 := by
  induction A with
  | nil =>
    cases m with
    | zero => simp [insertDesc]
    | succ k => simp [List.replicate_succ, insertDesc, hx]
  | cons y ys ih =>
    simp only [List.cons_append, insertDesc]
    split <;> simp [ih]

theorem sortDesc_replicate_zero (m : ℕ) :
    sortDesc (List.replicate m 0) = List.replicate m (0 : ℚ) := by
  induction m with
  | zero => rfl
  | succ k ih =>
    show insertDesc 0 (sortDesc (List.replicate k 0)) = _
    rw [ih]
    cases k with
    | zero => rfl
    | succ j => simp [List.replicate_succ, insertDesc]

theorem sortDesc_append_zeros (l : List ℚ) (m : ℕ)
    (h : ∀ x ∈ l, 0 ≤ x) :
    sortDesc (l ++ List.replicate m 0) =
      sortDesc l ++ List.replicate m 0 := by
  induction l with
  | nil => simpa using sortDesc_replicate_zero m
  | cons x xs ih =>
    simp only [List.cons_append, sortDesc, List.foldr_cons] at *
    rw [ih fun y hy => h y (List.mem_cons_of_mem _ hy)]
    exact insertDesc_append_zeros _ m x (h x (List.mem_cons_self x xs))

theorem take_pad_append_zeros (S : List ℚ) (p k : ℕ) :
    (S ++ List.replicate p 0).take k ++
      List.replicate (k - (S.length + p)) 0 =
    S.take k ++ List.replicate (k - S.length) 0 := by
  rcases le_or_lt k S.length with hk | hk
  · rw [List.take_append_of_le_length hk,
      Nat.sub_eq_zero_of_le (le_trans hk (Nat.le_add_right _ _)),
      Nat.sub_eq_zero_of_le hk]
  · rw [List.take_of_length_le (le_of_lt hk),
      show k = S.length + (k - S.length) by omega,
      List.take_append, List.take_replicate, List.append_assoc,
      ← List.replicate_add]
    congr 3
    omega

theorem tentValues_nonneg (s : Sample) (t : ℚ) :
    ∀ x ∈ tentValues s t, 0 ≤ x := by
  intro x hx
  simp only [tentValues, List.mem_map] at hx
  obtain ⟨p, _, rfl⟩ := hx
  exact le_max_right _ _

theorem sum_pos_of_exists_pos (l : List ℚ) (h0 : ∀ x ∈ l, 0 ≤ x)
    (hx : ∃ x ∈ l, 0 < x) : 0 < l.sum := by
  induction l with
  | nil => simp at hx
  | cons a t ih =>
    rw [List.sum_cons]
    obtain ⟨x, hmem, hxpos⟩ := hx
    rcases List.mem_cons.mp hmem with rfl | hm
    · have ht : 0 ≤ t.sum :=
        List.sum_nonneg fun y hy => h0 y (List.mem_cons_of_mem _ hy)
      linarith
    · have ht := ih (fun y hy => h0 y (List.mem_cons_of_mem _ hy))
        ⟨x, hm, hxpos⟩
      linarith [h0 a (List.mem_cons_self a t)]

theorem tentValues_diagonal (pad : Sample) (t : ℚ)
    (hpad : ∀ p ∈ pad, p.1 = p.2) :
    tentValues pad t = List.replicate pad.length 0 := by
  rw [List.eq_replicate_iff]
  refine ⟨by simp [tentValues], ?_⟩
  intro b hb
  simp only [tentValues, List.mem_map] at hb
  obtain ⟨p, hp, rfl⟩ := hb
  rw [hpad p hp]
  apply max_eq_right
  have h0 : (0 : ℚ) ≤ |t - (p.2 + p.2) / 2| := abs_nonneg _
  linarith

/-- a zero lifespan contributes a zero term to the entropy sum, whatever
the value of the normalizing total. -/
theorem entropy_zero_term (log : ℚ → ℝ) (total : ℚ) :
    nanToNum (xlogx log (fpDiv 0 total)) = 0 := by
  by_cases h : total = 0 <;> simp [fpDiv, h, xlogx, nanToNum]

/-- C5: for every diagram sample with valid points whose lifespans do not
all vanish, the persistence entropy equals the negative sum over points of
p * log p, where p is the lifespan normalized by the total lifespan and a
point with zero normalized mass contributes exactly 0; in particular a
diagram with the single point (0, 1) has entropy 0. -/
theorem persistence_entropy_formula (log : ℚ → ℝ) (s : Sample)
    (hvalid : ∀ p ∈ s, p.1 ≤ p.2) (hnz : ∃ p ∈ s, p.1 < p.2) :
    persistence_entropy log s =
      -(s.map fun p =>
          if (p.2 - p.1) / (s.map fun q => q.2 - q.1).sum = 0 then (0 : ℝ)
          else ((p.2 - p.1) / (s.map fun q => q.2 - q.1).sum : ℚ) *
            log ((p.2 - p.1) / (s.map fun q => q.2 - q.1).sum)).sum
    ∧ (log 1 = 0 → persistence_entropy log [(0, 1)] = 0) := by
  constructor
  · have htot : 0 < (s.map fun q => q.2 - q.1).sum := by
      obtain ⟨p, hp, hlt⟩ := hnz
      refine sum_pos_of_exists_pos _ ?_
        ⟨p.2 - p.1, List.mem_map_of_mem _ hp, by linarith⟩
      intro x hx
      obtain ⟨q, hq, rfl⟩ := List.mem_map.mp hx
      linarith [hvalid q hq]
    unfold persistence_entropy entropyTerms
    rw [List.map_map]
    congr 1
    refine congrArg List.sum (List.map_congr_left fun p hp => ?_)
    simp only [Function.comp_apply]
    have hx : 0 ≤ p.2 - p.1 := by linarith [hvalid p hp]
    rw [fpDiv, if_neg (ne_of_gt htot)]
    set q : ℚ := (p.2 - p.1) / (s.map fun r => r.2 - r.1).sum with hq
    have hq0 : 0 ≤ q := div_nonneg hx (le_of_lt htot)
    by_cases hz : q = 0
    · simp [xlogx, hz, nanToNum]
    · rw [xlogx, if_neg (not_lt.mpr hq0), if_neg hz]
      simp [nanToNum, hz]
  · intro hlog
    norm_num [persistence_entropy, entropyTerms, fpDiv, xlogx, nanToNum,
      hlog]

/-- Closed instance of C5 at the single-point diagram (0, 1) with the
natural logarithm, discharging both hypotheses. -/
theorem persistence_entropy_formula_witness :
    persistence_entropy (fun q : ℚ => Real.log (q : ℝ))
      [((0 : ℚ), (1 : ℚ))] = 0 :=
  (persistence_entropy_formula (fun q : ℚ => Real.log (q : ℝ)) [(0, 1)]
    (by decide) ⟨(0, 1), by decide, by decide⟩).2 (by simp)

/-- C10: for every diagram sample all of whose points are diagonal, the
persistence entropy is 0 rather than NaN: the 0/0 normalization yields
NaN terms which nan_to_num converts to 0 before summation. -/
theorem persistence_entropy_all_diagonal (log : ℚ → ℝ) (s : Sample)
    (hdiag : ∀ p ∈ s, p.2 = p.1) :
    persistence_entropy log s = 0 := by
  have hls : ∀ x ∈ s.map fun p => p.2 - p.1, x = 0 := by
    intro x hx
    obtain ⟨p, hp, rfl⟩ := List.mem_map.mp hx
    rw [hdiag p hp]; ring
  unfold persistence_entropy entropyTerms
  rw [neg_eq_zero]
  refine List.sum_eq_zero fun r hr => ?_
  obtain ⟨x, hx, rfl⟩ := List.mem_map.mp hr
  rw [hls x hx]
  exact entropy_zero_term log _

/-- Closed instance of C10 at an all-diagonal two-point diagram. -/
theorem persistence_entropy_all_diagonal_witness :
    persistence_entropy (fun _ => 0) [((1 : ℚ), (1 : ℚ)), (2, 2)] = 0 :=
  persistence_entropy_all_diagonal _ _ (by decide)

/-- C6: appending diagonal (birth = death) points to a sample changes
neither its Betti curve, nor its persistence landscape, nor its
persistence entropy. -/
theorem padding_invariance (s pad : Sample) (sampling : List ℚ)
    (nLayers : ℕ) (log : ℚ → ℝ) (hpad : ∀ p ∈ pad, p.1 = p.2)
    (_hk : 1 ≤ nLayers) :
    betti_curves [s ++ pad] sampling = betti_curves [s] sampling ∧
    landscapes [s ++ pad] sampling nLayers =
      landscapes [s] sampling nLayers ∧
    persistence_entropy log (s ++ pad) = persistence_entropy log s := by
  refine ⟨?_, ?_, ?_⟩
  · simp only [betti_curves, List.map_cons, List.map_nil, List.cons.injEq,
      and_true]
    refine List.map_congr_left fun t _ => ?_
    rw [List.countP_append]
    have : pad.countP (fun p => decide (p.1 ≤ t) && decide (t < p.2)) = 0 := by
      rw [List.countP_eq_zero]
      intro p hp
      rw [hpad p hp]
      simp only [Bool.and_eq_true, decide_eq_true_eq, not_and]
      intro h1 h2
      exact absurd (lt_of_le_of_lt h1 h2) (lt_irrefl _)
    omega
  · simp only [landscapes, List.map_cons, List.map_nil, List.headI,
      List.length_append, List.cons.injEq, and_true]
    refine List.map_congr_left fun k _ => ?_
    refine List.map_congr_left fun t _ => ?_
    have hsort : sortDesc (tentValues (s ++ pad) t) =
        sortDesc (tentValues s t) ++ List.replicate pad.length 0 := by
      rw [show tentValues (s ++ pad) t =
          tentValues s t ++ tentValues pad t by simp [tentValues],
        tentValues_diagonal pad t hpad]
      exact sortDesc_append_zeros _ _ (tentValues_nonneg s t)
    rw [hsort]
    have hlen : (sortDesc (tentValues s t)).length = s.length := by
      rw [sortDesc_length]; simp [tentValues]
    rw [show s.length + pad.length =
        (sortDesc (tentValues s t)).length + pad.length by rw [hlen],
      take_pad_append_zeros, hlen]
  · unfold persistence_entropy entropyTerms
    have hpadzero : ∀ x ∈ pad.map fun p => p.2 - p.1, x = (0 : ℚ) := by
      intro x hx
      obtain ⟨p, hp, rfl⟩ := List.mem_map.mp hx
      rw [hpad p hp]; ring
    have htot : ((s ++ pad).map fun p => p.2 - p.1).sum
        = (s.map fun p => p.2 - p.1).sum := by
      rw [List.map_append, List.sum_append, List.sum_eq_zero hpadzero,
        add_zero]
    have hz : ((pad.map fun p => p.2 - p.1).map fun x =>
        nanToNum (xlogx log
          (fpDiv x (s.map fun p => p.2 - p.1).sum))).sum = 0 := by
      refine List.sum_eq_zero fun r hr => ?_
      obtain ⟨x, hx, rfl⟩ := List.mem_map.mp hr
      rw [hpadzero x hx]
      exact entropy_zero_term log _
    rw [neg_inj, htot, List.map_append, List.map_append, List.sum_append,
      hz, add_zero]

/-! ## Diagram validation (`gtda/utils/validation.py`, `check_diagram`) -/

/-- A raw diagram point (birth, death, homology dimension).  The dimension
slot of the float array can hold the `np.inf` sentinel, modelled as
`none`; every other float value is a rational `some q`. -/
abbrev RawPoint := ℚ × ℚ × Option ℚ

/-- A raw diagram sample: a list of (birth, death, dimension) triples. -/
abbrev RawSample := List RawPoint

/-- Python `int()` applied to a rational: truncation towards zero. -/
def ratTrunc (q : ℚ) : ℤ := q.num / (q.den : ℤ)

/-- The error raised (if any) by one iteration of the dimension loop of
`check_diagram` (`validation.py` lines 41-56): an infinite sentinel is
rejected unless it is the only dimension present (`n` is the number of
distinct dimension values of the first sample); a finite dimension is
rejected if it differs from its own `int()` truncation or from its own
absolute value. -/
def dimError (n : ℕ) (dim : Option ℚ) : Option String :=
  match dim with
  | none =>
      if n ≠ 1 then
        some "np.inf is a valid homology dimension for a stacked diagram but it should be the only one"
      else none
  | some q =>
      if q ≠ (ratTrunc q : ℚ) then
        some "All homology dimensions should be integer valued"
      else if q ≠ |q| then
        some "All homology dimensions should be integer valued"
      else none

/-- `check_diagram` (`validation.py` lines 30-69).  The rank-3 and
last-axis-length-3 shape clauses are enforced by the `List RawSample`
type.  The homology dimensions are collected from the FIRST sample only
(`X[0, :, 2]`); `sorted(list(set(...)))` is modelled by `dedup` (the
error raised does not depend on the iteration order, only on whether some
dimension is offending).  The above-diagonal clause counts the points
with `death >= birth` over ALL samples and compares with the total point
count.  With `copy=True` the source returns `np.copy(X)`, an array with
the same value as `X`. -/
def check_diagram (X : List RawSample) (_copy : Bool) :
    Except String (List RawSample) :=
  match ((X.headI.map fun p => p.2.2).dedup).findSome?
      (dimError ((X.headI.map fun p => p.2.2).dedup).length) with
  | some e => .error e
  | none =>
      if (X.map fun s => s.countP fun p => decide (p.1 ≤ p.2.1)).sum ≠
          (X.map List.length).sum then
        .error "All points of all n_samples persistent diagrams should be above the diagonal"
      else .ok X

/-- The dimension clause of the amended C3, phrased from the claim's
words but restricted to the first sample: every dimension value of the
first sample is a non-negative integer, except that the infinite sentinel
is permitted iff it is the only dimension value of the first sample. -/
def DimsClauseOK (X : List RawSample) : Prop :=
  ∀ d ∈ (X.headI.map fun p => p.2.2).dedup,
    match d with
    | none => ((X.headI.map fun p => p.2.2).dedup).length = 1
    | some q => ∃ n : ℕ, q = (n : ℚ)

/-- The above-diagonal clause of C3: every point of every sample
satisfies death >= birth. -/
def AboveDiagonal (X : List RawSample) : Prop :=
  ∀ s ∈ X, ∀ p ∈ s, p.1 ≤ p.2.1

theorem ratTrunc_abs_iff (q : ℚ) :
    (q = (ratTrunc q : ℚ) ∧ q = |q|) ↔ ∃ n : ℕ, q = (n : ℚ) := by
  constructor
  · rintro ⟨hint, habs⟩
    have h0 : 0 ≤ q := abs_eq_self.mp habs.symm
    have h0' : 0 ≤ (ratTrunc q : ℚ) := hint ▸ h0
    have hz : (0 : ℤ) ≤ ratTrunc q := by exact_mod_cast h0'
    refine ⟨(ratTrunc q).toNat, ?_⟩
    conv_lhs => rw [hint]
    exact_mod_cast congrArg (fun z : ℤ => (z : ℚ))
      (Int.toNat_of_nonneg hz).symm
  · rintro ⟨n, rfl⟩
    have htr : ratTrunc (n : ℚ) = (n : ℤ) := by
      unfold ratTrunc
      norm_num
    constructor
    · rw [htr]; norm_cast
    · rw [abs_of_nonneg (by positivity)]

theorem sum_countP_eq_sum_length_iff (X : List RawSample) :
    ((X.map fun s => s.countP fun p => decide (p.1 ≤ p.2.1)).sum =
      (X.map List.length).sum) ↔ AboveDiagonal X := by
  induction X with
  | nil => simp [AboveDiagonal]
  | cons s t ih =>
    simp only [List.map_cons, List.sum_cons]
    have hle : s.countP (fun p => decide (p.1 ≤ p.2.1)) ≤ s.length :=
      List.countP_le_length _
    have hle2 : (t.map fun s' => s'.countP fun p =>
        decide (p.1 ≤ p.2.1)).sum ≤ (t.map List.length).sum :=
      List.sum_le_sum fun s' _ => List.countP_le_length _
    constructor
    · intro h
      have h1 : s.countP (fun p => decide (p.1 ≤ p.2.1)) = s.length := by
        omega
      have h2 : (t.map fun s' => s'.countP fun p =>
          decide (p.1 ≤ p.2.1)).sum = (t.map List.length).sum := by omega
      intro s' hs'
      rcases List.mem_cons.mp hs' with rfl | hm
      · intro p hp
        simpa using List.countP_eq_length.mp h1 p hp
      · exact ih.mp h2 s' hm
    · intro h
      have h1 : s.countP (fun p => decide (p.1 ≤ p.2.1)) = s.length :=
        List.countP_eq_length.mpr fun p hp => by
          simpa using h s (List.mem_cons_self s t) p hp
      have h2 := ih.mpr fun s' hs' => h s' (List.mem_cons_of_mem _ hs')
      omega

theorem dimError_eq_none_iff (n : ℕ) (d : Option ℚ) :
    dimError n d = none ↔
      (match d with
       | none => n = 1
       | some q => ∃ k : ℕ, q = (k : ℚ)) := by
  cases d with
  | none => simp [dimError]
  | some q =>
    simp only [dimError]
    constructor
    · intro h
      by_cases h1 : q = (ratTrunc q : ℚ)
      · by_cases h2 : q = |q|
        · exact (ratTrunc_abs_iff q).mp ⟨h1, h2⟩
        · rw [if_neg (not_ne_iff.mpr h1), if_pos h2] at h
          exact Option.noConfusion h
      · rw [if_pos h1] at h
        exact Option.noConfusion h
    · intro hk
      obtain ⟨h1, h2⟩ := (ratTrunc_abs_iff q).mpr hk
      rw [if_neg (not_ne_iff.mpr h1), if_neg (not_ne_iff.mpr h2)]

/-- C3 counterexample to the claim as stated: the second sample of this
batch contains the homology dimension -1, which is not a non-negative
integer, yet the validator returns the batch unchanged because it reads
dimension values from the first sample only. -/
theorem check_diagram_counterexample :
    check_diagram [[(0, 1, some 0)], [(0, 1, some (-1))]] false =
      .ok [[(0, 1, some 0)], [(0, 1, some (-1))]] ∧
    ¬∃ n : ℕ, (-1 : ℚ) = (n : ℚ) := by
  constructor
  · rfl
  · rintro ⟨n, hn⟩
    have hge : (0 : ℚ) ≤ (n : ℚ) := by positivity
    linarith [hn ▸ hge]

/-- C3 (amended): within rank-3, last-axis-3 inputs (enforced by the
type) and nonempty batches, the validator returns its input unchanged iff
every homology-dimension value of the FIRST sample is a non-negative
integer (the infinite sentinel being allowed iff it is the only dimension
value of the first sample) and every point of every sample has
death >= birth; otherwise it errors. -/
theorem check_diagram_ok_iff (X : List RawSample) (copy : Bool)
    (_hne : X ≠ []) :
    check_diagram X copy = .ok X ↔ DimsClauseOK X ∧ AboveDiagonal X := by
  clear _hne
  rcases hf : ((X.headI.map fun p => p.2.2).dedup).findSome?
      (dimError ((X.headI.map fun p => p.2.2).dedup).length) with _ | e
  · have hdims : DimsClauseOK X := by
      intro d hd
      exact (dimError_eq_none_iff _ d).mp
        (List.findSome?_eq_none_iff.mp hf d hd)
    by_cases hab : ((X.map fun s =>
        s.countP fun p => decide (p.1 ≤ p.2.1)).sum =
        (X.map List.length).sum)
    · have hok : check_diagram X copy = .ok X := by
        unfold check_diagram
        rw [hf, if_neg (by simpa using hab)]
      rw [hok]
      exact ⟨fun _ => ⟨hdims, (sum_countP_eq_sum_length_iff X).mp hab⟩,
        fun _ => rfl⟩
    · have herr : check_diagram X copy = .error
          "All points of all n_samples persistent diagrams should be above the diagonal" := by
        unfold check_diagram
        rw [hf, if_pos (by simpa using hab)]
      rw [herr]
      constructor
      · intro h
        exact Except.noConfusion h
      · rintro ⟨-, habove⟩
        exact absurd ((sum_countP_eq_sum_length_iff X).mpr habove) hab
  · have herr : check_diagram X copy = .error e := by
      unfold check_diagram
      rw [hf]
    rw [herr]
    constructor
    · intro h
      exact Except.noConfusion h
    · rintro ⟨hdims, -⟩
      have hnone : ((X.headI.map fun p => p.2.2).dedup).findSome?
          (dimError ((X.headI.map fun p => p.2.2).dedup).length) = none :=
        List.findSome?_eq_none_iff.mpr fun d hd =>
          (dimError_eq_none_iff _ d).mpr (hdims d hd)
      rw [hf] at hnone
      exact Option.noConfusion hnone

/-- Closed instance of the amended C3 at a valid one-sample batch. -/
theorem check_diagram_ok_iff_witness :
    check_diagram [[((0 : ℚ), (1 : ℚ), (some 0 : Option ℚ))]] false =
      .ok [[((0 : ℚ), (1 : ℚ), (some 0 : Option ℚ))]] ↔
    DimsClauseOK [[((0 : ℚ), (1 : ℚ), (some 0 : Option ℚ))]] ∧
      AboveDiagonal [[((0 : ℚ), (1 : ℚ), (some 0 : Option ℚ))]] :=
  check_diagram_ok_iff _ false (by decide)

/-! ## Bottleneck amplitudes (`_metrics.py`, `bottleneck_amplitudes`) -/

/-- `bottleneck_amplitudes` (`_metrics.py` lines 223-225): per sample,
the distances to the diagonal are `sqrt(2)/2 * (death - birth)` and the
amplitude is their L-infinity norm `np.linalg.norm(..., ord=np.inf)`, the
maximum of the absolute values. -/
noncomputable def bottleneck_amplitudes (diagrams : List Sample) :
    List ℝ :=
  diagrams.map fun s =>
    (s.map fun p =>
      |Real.sqrt 2 / 2 * (((p.2 : ℚ) : ℝ) - ((p.1 : ℚ) : ℝ))|).foldr max 0

/-- C7: for valid diagrams, the bottleneck amplitude of each sample is
the maximum over its points of sqrt(2)/2 * (death - birth), computed
analytically; the single-point diagram (0,1) has amplitude sqrt(2)/2. -/
theorem bottleneck_amplitudes_analytic (diagrams : List Sample)
    (hvalid : ∀ s ∈ diagrams, ∀ p ∈ s, p.1 ≤ p.2) :
    bottleneck_amplitudes diagrams =
      diagrams.map (fun s =>
        (s.map fun p =>
          Real.sqrt 2 / 2 * (((p.2 : ℚ) : ℝ) - ((p.1 : ℚ) : ℝ))).foldr
            max 0)
    ∧ bottleneck_amplitudes [[(0, 1)]] = [Real.sqrt 2 / 2] := by
  constructor
  · refine List.map_congr_left fun s hs => ?_
    congr 1
    refine List.map_congr_left fun p hp => ?_
    apply abs_of_nonneg
    have h2 : (0 : ℝ) ≤ Real.sqrt 2 / 2 := by positivity
    have hbd : ((p.1 : ℚ) : ℝ) ≤ ((p.2 : ℚ) : ℝ) := by
      exact_mod_cast hvalid s hs p hp
    exact mul_nonneg h2 (by linarith)
  · unfold bottleneck_amplitudes
    simp only [List.map_cons, List.map_nil, List.foldr_cons,
      List.foldr_nil]
    rw [show (((1 : ℚ) : ℝ) - ((0 : ℚ) : ℝ)) = 1 by norm_num, mul_one,
      abs_of_nonneg (by positivity), max_eq_left (by positivity)]

/-- Closed instance of C7 at the single-point diagram (0, 1). -/
theorem bottleneck_amplitudes_analytic_witness :
    bottleneck_amplitudes [[((0 : ℚ), (1 : ℚ))]] = [Real.sqrt 2 / 2] :=
  (bottleneck_amplitudes_analytic [[(0, 1)]] (by decide)).2

/-- Closed instance of C6: a diagonal point (2,2) appended to the
one-point diagram (0,1) leaves all three vectorizations unchanged. -/
theorem padding_invariance_witness :
    betti_curves [[((0 : ℚ), (1 : ℚ)), (2, 2)]] [0, 1] =
      betti_curves [[((0 : ℚ), (1 : ℚ))]] [0, 1] ∧
    landscapes [[((0 : ℚ), (1 : ℚ)), (2, 2)]] [0, 1] 1 =
      landscapes [[((0 : ℚ), (1 : ℚ))]] [0, 1] 1 ∧
    persistence_entropy (fun _ => 0) [((0 : ℚ), (1 : ℚ)), (2, 2)] =
      persistence_entropy (fun _ => 0) [((0 : ℚ), (1 : ℚ))] :=
  padding_invariance [(0, 1)] [(2, 2)] [0, 1] 1 (fun _ => 0) (by decide)
    (by decide)

/-! ## Heat raster (`_metrics.py`, `_heat` and `heats`) -/

/-- A raster image: rows of rational values. -/
abbrev Image := List (List ℚ)

/-- Modelled from the spec: `_sample_image` (defined in
`gtda/diagrams/_utils.py`, which is not part of the source excerpt)
rasterizes the pixel-quantized points of one diagram as unit masses:
cell (i, j) receives one unit for every point whose quantized
(birth, death) pair is (i, j). -/
def sample_image (n : ℕ) (pts : List (ℕ × ℕ)) : Image :=
  (List.range n).map fun i => (List.range n).map fun j =>
    ((pts.countP fun q => decide (q = (i, j))) : ℚ)

/-- Clamp a coordinate into the sampling range and quantize to a pixel:
`int((clamped - sampling[0]) / step_size)` (`_metrics.py` lines 47-50);
the `int()` truncation towards zero is the floor on the non-negative
offsets produced by an ordered grid. -/
def quantizePoint (s0 slast step x : ℚ) : ℕ :=
  (⌊(min (max x s0) slast - s0) / step⌋).toNat

/-- Entry (i, j) of the transpose of an n x n raster
(`np.transpose(heats_, (0, 2, 1))` per sample). -/
def transposeIm (n : ℕ) (m : Image) : Image :=
  (List.range n).map fun i => (List.range n).map fun j =>
    (m.getD j []).getD i 0

/-- Pointwise difference of two rasters. -/
def imSub (a b : Image) : Image :=
  List.zipWith (List.zipWith (· - ·)) a b

/-- `np.rot90(m, k=1)` of an n x n raster: entry (i, j) of the result is
entry (j, n-1-i) of the input. -/
def rot90 (n : ℕ) (m : Image) : Image :=
  (List.range n).map fun i => (List.range n).map fun j =>
    (m.getD j []).getD (n - 1 - i) 0

/-- Pointwise scaling of a raster (used as a concrete stand-in filter). -/
def imScale (c : ℚ) (m : Image) : Image :=
  m.map fun r => r.map (c * ·)

/-- `_heat` (`_metrics.py` lines 38-41) followed by the per-sample steps
of `heats`: the raster is filled in place by `_sample_image`; the line
`heat = gaussian_filter(heat, sigma, mode="reflect")` only rebinds the
local name `heat`, so the convolution result (the unused binding below)
is discarded and the array seen by the caller stays the unconvolved
raster.  `G` abstracts `scipy.ndimage.gaussian_filter` with reflective
boundary mode. -/
def heatSample (G : ℝ → Image → Image) (sigma : ℝ)
    (s0 slast step : ℚ) (n : ℕ) (s : Sample) : Image :=
  let raster := sample_image n (s.map fun p =>
    (quantizePoint s0 slast step p.1, quantizePoint s0 slast step p.2))
  let _conv := G sigma raster
  rot90 n (imSub raster (transposeIm n raster))

/-- `heats` (`_metrics.py` lines 43-57): clamp and quantize the diagrams,
rasterize each sample, (intend to) convolve, antisymmetrize by
subtracting the transposed raster, and rotate by 90 degrees. -/
def heats (G : ℝ → Image → Image) (sigma : ℝ) (diagrams : List Sample)
    (sampling : List ℚ) (stepSize : ℚ) : List Image :=
  diagrams.map
    (heatSample G sigma sampling.headI (sampling.getLastD 0) stepSize
      sampling.length)

/-- The heat raster as the specification describes it: the convolution
operator is applied to the raster, and the antisymmetrized difference of
the convolved rasters is rotated. -/
def heatsSpec (G : ℝ → Image → Image) (sigma : ℝ)
    (diagrams : List Sample) (sampling : List ℚ) (stepSize : ℚ) :
    List Image :=
  diagrams.map fun s =>
    let raster := sample_image sampling.length (s.map fun p =>
      (quantizePoint sampling.headI (sampling.getLastD 0) stepSize p.1,
        quantizePoint sampling.headI (sampling.getLastD 0) stepSize p.2))
    let conv := G sigma raster
    rot90 sampling.length
      (imSub conv (transposeIm sampling.length conv))

/-- C1 (code-bug evidence): the output of `heats` is identical for every
convolution operator and width -- the `gaussian_filter` result is
discarded by the local rebinding in `_heat` -- and already for the
doubling operator on the one-point diagram it differs from the output
that the specification describes, in which the convolution is applied. -/
theorem heats_convolution_discarded (G₁ G₂ : ℝ → Image → Image)
    (σ₁ σ₂ : ℝ) (diagrams : List Sample) (sampling : List ℚ)
    (stepSize : ℚ) :
    heats G₁ σ₁ diagrams sampling stepSize =
      heats G₂ σ₂ diagrams sampling stepSize ∧
    heats (fun _ im => imScale 2 im) 1 [[(0, 1)]] [0, 1] 1 ≠
      heatsSpec (fun _ im => imScale 2 im) 1 [[(0, 1)]] [0, 1] 1 := by
  refine ⟨rfl, ?_⟩
  have hq0 : quantizePoint 0 1 1 0 = 0 := by norm_num [quantizePoint]
  have hq1 : quantizePoint 0 1 1 1 = 1 := by norm_num [quantizePoint]
  have hraster : sample_image 2 [(0, 1)] = [[0, 1], [0, 0]] := by
    norm_num [sample_image, List.range_succ]
  have hcode : heats (fun _ im => imScale 2 im) 1 [[(0, 1)]] [0, 1] 1 =
      [[[1, 0], [0, -1]]] := by
    show [heatSample (fun _ im => imScale 2 im) 1 0 1 1 2 [(0, 1)]] = _
    rw [heatSample]
    simp only [List.map_cons, List.map_nil, hq0, hq1, hraster]
    norm_num [rot90, imSub, transposeIm, List.range_succ]
  have hspec : heatsSpec (fun _ im => imScale 2 im) 1 [[(0, 1)]] [0, 1] 1 =
      [[[2, 0], [0, -2]]] := by
    rw [heatsSpec]
    simp only [List.map_cons, List.map_nil]
    rw [show ([(0 : ℚ), 1] : List ℚ).headI = 0 from rfl,
      show ([(0 : ℚ), 1] : List ℚ).getLastD 0 = 1 from rfl,
      show ([(0 : ℚ), 1] : List ℚ).length = 2 from rfl]
    simp only [hq0, hq1, hraster]
    norm_num [rot90, imSub, transposeIm, imScale, List.range_succ]
  rw [hcode, hspec]
  intro h
  have := List.cons.inj h
  simp at this

/-! ## Silhouettes (spec-modelled) -/

theorem zipWith_map_same {α β γ δ : Type} (f : β → γ → δ) (g : α → β)
    (h : α → γ) (l : List α) :
    List.zipWith f (l.map g) (l.map h) = l.map fun x => f (g x) (h x) := by
  induction l with
  | nil => rfl
  | cons a t ih => simp [ih]

/-- Modelled from the spec: `silhouettes` is imported from `_metrics` by
`features.py` but its definition is not part of the source excerpt.  Per
the spec it is the weighted variant of the landscape: at each grid
location, the weighted average of all points' tent values with weight
(death - birth)^order.  The pipeline mirrors the array computation:
per-point weights, their total, and the contraction of the tent-value
rows against the weights, divided by the total weight. -/
noncomputable def silhouettes (diagrams : List Sample)
    (sampling : List ℚ) (order : ℝ) : List (List ℝ) :=
  diagrams.map fun s =>
    let weights := s.map fun p => (((p.2 - p.1 : ℚ) : ℝ)) ^ order
    sampling.map fun t =>
      (List.zipWith (· * ·)
        ((tentValues s t).map fun v => ((v : ℚ) : ℝ)) weights).sum /
        weights.sum

/-- C9: at each grid location the silhouette value is the weighted
average of all points' tent values max(h - |t - m|, 0) with weight
(death - birth)^order, and each sample yields one curve whose length is
the grid size. -/
theorem silhouettes_weighted_average (diagrams : List Sample)
    (sampling : List ℚ) (order : ℝ) :
    silhouettes diagrams sampling order =
      diagrams.map (fun s => sampling.map fun t =>
        (s.map fun p =>
          ((max ((p.2 - p.1) / 2 - |t - (p.2 + p.1) / 2|) 0 : ℚ) : ℝ) *
            (((p.2 - p.1 : ℚ) : ℝ)) ^ order).sum /
        (s.map fun p => (((p.2 - p.1 : ℚ) : ℝ)) ^ order).sum) ∧
    ∀ c ∈ silhouettes diagrams sampling order,
      c.length = sampling.length := by
  constructor
  · refine List.map_congr_left fun s _ => ?_
    refine List.map_congr_left fun t _ => ?_
    congr 1
    rw [tentValues, List.map_map, zipWith_map_same]
    simp [Function.comp]
  · intro c hc
    obtain ⟨s, -, rfl⟩ := List.mem_map.mp hc
    simp

/-! ## Amplitude recipes and their dispatch table
(`_metrics.py` lines 211-253) -/

/-- `np.linalg.norm(v, ord=p)` of a 1-D vector: `(sum |x|^p)^(1/p)`. -/
noncomputable def pnorm (p : ℝ) (v : List ℝ) : ℝ :=
  ((v.map fun x => |x| ^ p).sum) ^ (1 / p)

/-- `betti_amplitudes` (`_metrics.py` lines 211-213): the scaled vector
p-norm of each sample's Betti curve. -/
noncomputable def betti_amplitudes (p : ℝ) (stepSize : ℚ)
    (diagrams : List Sample) (sampling : List ℚ) : List ℝ :=
  (betti_curves diagrams sampling).map fun c =>
    ((stepSize : ℝ) ^ (1 / p)) * pnorm p (c.map fun k => (k : ℝ))

/-- `landscape_amplitudes` (`_metrics.py` lines 216-220): the scaled
vector p-norm of each sample's flattened landscape. -/
noncomputable def landscape_amplitudes (p : ℝ) (stepSize : ℚ)
    (nLayers : ℕ) (diagrams : List Sample) (sampling : List ℚ) :
    List ℝ :=
  (landscapes diagrams sampling nLayers).map fun ls =>
    ((stepSize : ℝ) ^ (1 / p)) *
      pnorm p (ls.flatten.map fun q => (q : ℝ))

/-- `wasserstein_amplitudes` (`_metrics.py` lines 228-230): the vector
p-norm of sqrt(2)/2 times the lifespans. -/
noncomputable def wasserstein_amplitudes (p : ℝ) (diagrams : List Sample) :
    List ℝ :=
  diagrams.map fun s =>
    pnorm p (s.map fun pt =>
      Real.sqrt 2 / 2 * (((pt.2 : ℚ) : ℝ) - ((pt.1 : ℚ) : ℝ)))

/-- `heat_amplitudes` (`_metrics.py` lines 233-235):
`np.linalg.norm(heat, axis=(1, 2), ord=p)` is numpy's MATRIX norm of
order p of each sample's heat raster (for p = 2 the spectral norm); the
external `np.linalg` semantics is abstracted as the collaborator `MN`. -/
noncomputable def heat_amplitudes (MN : ℝ → Image → ℝ)
    (G : ℝ → Image → Image) (p sigma : ℝ) (stepSize : ℚ)
    (diagrams : List Sample) (sampling : List ℚ) : List ℝ :=
  (heats G sigma diagrams sampling stepSize).map (MN p)

/-- Tags naming the function objects that the amplitude recipe
dictionary can store. -/
inductive AmplitudeFn where
  | bottleneckAmps
  | wassersteinAmps
  | landscapeAmps
  | bettiAmps
  | heatAmps
  | persistenceImagesFn
  | persistenceImageAmps
deriving DecidableEq

/-- `implemented_amplitude_recipes` (`_metrics.py` lines 246-253): the
`"persistence_image"` key is bound to the function object
`persistence_images` (the raster vectorizer), not to
`persistence_image_amplitudes` defined directly above the table. -/
def implemented_amplitude_recipes : String → Option AmplitudeFn
  | "bottleneck" => some .bottleneckAmps
  | "wasserstein" => some .wassersteinAmps
  | "landscape" => some .landscapeAmps
  | "betti" => some .bettiAmps
  | "heat" => some .heatAmps
  | "persistence_image" => some .persistenceImagesFn
  | _ => none

/-- One task of `_parallel_amplitude` (`_metrics.py` lines 262-281): the
dispatched function is called as `f(subdiagrams, sampling=...,
step_size=..., **effective_metric_params)`.  The `persistence_image`
entry dispatches `persistence_images(diagrams, sampling, step_size,
weights, sigma)`, which has no `**kwargs` and accepts neither the
`weight_function` nor the `p` keyword argument the engine forwards for
this metric, so the call raises a TypeError; `persistence_image_amplitudes`
(lines 238-243), which the table does not reference, would itself pass
its `weight_function` argument as the `weights` array, making
`np.max(weights)` raise a TypeError as well. -/
noncomputable def runAmplitude (MN : ℝ → Image → ℝ)
    (G : ℝ → Image → Image) (fn : AmplitudeFn) (p sigma : ℝ)
    (nLayers : ℕ) (sampling : List ℚ) (stepSize : ℚ)
    (chunk : List Sample) : Except String (List ℝ) :=
  match fn with
  | .bottleneckAmps => .ok (bottleneck_amplitudes chunk)
  | .wassersteinAmps => .ok (wasserstein_amplitudes p chunk)
  | .landscapeAmps =>
      .ok (landscape_amplitudes p stepSize nLayers chunk sampling)
  | .bettiAmps => .ok (betti_amplitudes p stepSize chunk sampling)
  | .heatAmps =>
      .ok (heat_amplitudes MN G p sigma stepSize chunk sampling)
  | .persistenceImagesFn =>
      .error "TypeError: persistence_images() got an unexpected keyword argument"
  | .persistenceImageAmps =>
      .error "TypeError: np.max of a weight function"

/-- C2 (code-bug evidence): the amplitude table binds
"persistence_image" to the raster vectorizer `persistence_images`
instead of the per-sample amplitude function
`persistence_image_amplitudes`, and invoking the bound entry through the
engine's calling convention raises instead of returning one scalar per
sample. -/
theorem amplitude_recipe_persistence_image_wrong :
    implemented_amplitude_recipes "persistence_image" =
      some AmplitudeFn.persistenceImagesFn ∧
    AmplitudeFn.persistenceImagesFn ≠ AmplitudeFn.persistenceImageAmps ∧
    runAmplitude (fun _ _ => 0) (fun _ im => im)
        AmplitudeFn.persistenceImagesFn 2 1 1 [0, 1] 1 [[(0, 1)]] =
      .error "TypeError: persistence_images() got an unexpected keyword argument" :=
  ⟨rfl, by decide, rfl⟩

/-! ## Pairwise distance recipes (`_metrics.py` lines 85-172) -/

/-- Per sample, the points whose dimension column equals `dim`, with the
dimension column stripped. -/
def subSample (d : Option ℚ) (s : RawSample) : Sample :=
  (s.filter fun p => decide (p.2.2 = d)).map fun p => (p.1, p.2.1)

/-- Modelled from the spec: `_subdiagrams(X, [dim], remove_dim=True)`
(defined in `gtda/diagrams/_utils.py`, which is not part of the source
excerpt): the subset of each sample's points whose dimension matches,
with the third column removed. -/
def _subdiagrams (d : Option ℚ) (X : List RawSample) : List Sample :=
  X.map (subSample d)

/-- One entry of `scipy.spatial.distance.cdist(..., "minkowski", p=p)`:
the Minkowski distance of order p of two flattened vectors. -/
noncomputable def minkDist (p : ℝ) (x y : List ℝ) : ℝ :=
  ((List.zipWith (fun a b => |a - b| ^ p) x y).sum) ^ (1 / p)

/-- `cdist(A, B, "minkowski", p=p)`. -/
noncomputable def cdistM (p : ℝ) (A B : List (List ℝ)) :
    List (List ℝ) :=
  A.map fun r => B.map fun c => minkDist p r c

/-- `squareform(pdist(A, "minkowski", p=p))`: a square matrix with exact
zeros on the diagonal and the pairwise Minkowski distances elsewhere. -/
noncomputable def sqpdistM (p : ℝ) (A : List (List ℝ)) :
    List (List ℝ) :=
  A.enum.map fun ir => A.enum.map fun jc =>
    if ir.1 = jc.1 then 0 else minkDist p ir.2 jc.2

/-- Multiplication of a distance matrix by the scalar
`step_size ** (1 / p)`. -/
noncomputable def scaleM (k : ℝ) (M : List (List ℝ)) :
    List (List ℝ) :=
  M.map fun row => row.map fun x => k * x

/-- Flattening (`reshape(n, -1)` per sample) with cast to the reals. -/
def flattenCast (m : List (List ℚ)) : List ℝ :=
  m.flatten.map fun q => (q : ℝ)

/-- `betti_distances` (`_metrics.py` lines 85-95), including the
`np.array_equal(diagrams_1, diagrams_2)` self-distance short-circuit
through `pdist`/`squareform`. -/
noncomputable def betti_distances (p : ℝ) (stepSize : ℚ)
    (sampling : List ℚ) (d1 d2 : List Sample) : List (List ℝ) :=
  if d1 = d2 then
    scaleM ((stepSize : ℝ) ^ (1 / p))
      (sqpdistM p
        ((betti_curves d1 sampling).map fun c => c.map fun k => (k : ℝ)))
  else
    scaleM ((stepSize : ℝ) ^ (1 / p))
      (cdistM p
        ((betti_curves d1 sampling).map fun c => c.map fun k => (k : ℝ))
        ((betti_curves d2 sampling).map fun c => c.map fun k => (k : ℝ)))

/-- `landscape_distances` (`_metrics.py` lines 98-115): the layer count
is reduced to `min(n_layers, n_points)` of the respective batch, and to
the maximum of the two reduced counts when the batches differ. -/
noncomputable def landscape_distances (p : ℝ) (stepSize : ℚ)
    (sampling : List ℚ) (nLayers : ℕ) (d1 d2 : List Sample) :
    List (List ℝ) :=
  if d1 = d2 then
    scaleM ((stepSize : ℝ) ^ (1 / p))
      (sqpdistM p ((landscapes d1 sampling
        (min nLayers d1.headI.length)).map flattenCast))
  else
    scaleM ((stepSize : ℝ) ^ (1 / p))
      (cdistM p
        ((landscapes d1 sampling
          (max (min nLayers d1.headI.length)
            (min nLayers d2.headI.length))).map flattenCast)
        ((landscapes d2 sampling
          (max (min nLayers d1.headI.length)
            (min nLayers d2.headI.length))).map flattenCast))

/-- `bottleneck_distances` (`_metrics.py` lines 118-122): the external
exact matcher `B` (tolerance bound in) applied to every pair after
discarding diagonal points from each side. -/
def bottleneck_distances (B : List Point → List Point → ℝ)
    (d1 d2 : List Sample) : List (List ℝ) :=
  d1.map fun x => d2.map fun y =>
    B (x.filter fun q => decide (q.1 ≠ q.2))
      (y.filter fun q => decide (q.1 ≠ q.2))

/-- `wasserstein_distances` (`_metrics.py` lines 125-129): as
`bottleneck_distances` with the external matcher `W` (order and
tolerance bound in). -/
def wasserstein_distances (W : List Point → List Point → ℝ)
    (d1 d2 : List Sample) : List (List ℝ) :=
  d1.map fun x => d2.map fun y =>
    W (x.filter fun q => decide (q.1 ≠ q.2))
      (y.filter fun q => decide (q.1 ≠ q.2))

/-- The in-place clamping of `heats` (`_metrics.py` lines 47-48) that is
visible to the caller of `heat_distances`: every coordinate is clamped
into `[sampling[0], sampling[-1]]` (the quantization on line 49 rebinds
`diagrams` and is not visible). -/
def clampBatch (s0 slast : ℚ) (d : List Sample) : List Sample :=
  d.map fun s => s.map fun pt =>
    (min (max pt.1 s0) slast, min (max pt.2 s0) slast)

/-- `heat_distances` (`_metrics.py` lines 132-142): note that
`np.array_equal` compares `diagrams_1` AFTER `heats` clamped it in
place against the unclamped `diagrams_2`. -/
noncomputable def heat_distances (G : ℝ → Image → Image) (p sigma : ℝ)
    (stepSize : ℚ) (sampling : List ℚ) (d1 d2 : List Sample) :
    List (List ℝ) :=
  if clampBatch sampling.headI (sampling.getLastD 0) d1 = d2 then
    scaleM ((stepSize : ℝ) ^ (1 / p))
      (sqpdistM p ((heats G sigma d1 sampling stepSize).map flattenCast))
  else
    scaleM ((stepSize : ℝ) ^ (1 / p))
      (cdistM p
        ((heats G sigma d1 sampling stepSize).map flattenCast)
        ((heats G sigma d2 sampling stepSize).map flattenCast))

/-- A numpy array of rank 1 or 2 over rationals: just enough structure
to model the rank-sensitive indexing of `persistence_images`. -/
inductive Arr where
  | rank1 (xs : List ℚ)
  | rank2 (xss : List (List ℚ))

/-- `a[i, j]`: valid only on a rank-2 array. -/
def arrGet2 : Arr → ℕ → ℕ → Except String ℚ
  | .rank1 _, _, _ => .error "IndexError: too many indices for array"
  | .rank2 xss, i, j => .ok ((xss.getD i []).getD j 0)

/-- `a[i]` on the per-axis step-size array. -/
def arrGet1 : Arr → ℕ → Except String ℚ
  | .rank1 xs, i => .ok (xs.getD i 0)
  | .rank2 _, _ => .error "IndexError: wrong rank for step_size"

/-- The leading-axis length of an array. -/
def arrLen : Arr → ℕ
  | .rank1 xs => xs.length
  | .rank2 xss => xss.length

/-- `a.reshape((-1,))`. -/
def arrFlatten : Arr → List ℚ
  | .rank1 xs => xs
  | .rank2 xss => xss.flatten

/-- `persistence_images` (`_metrics.py` lines 60-82): re-parametrize to
(birth, persistence), clamp and pixel-quantize each axis against
`sampling[0, axis]`, `sampling[-1, axis]` and `step_size[axis]`,
rasterize (the convolution result is discarded by the same local
rebinding as in `_heat`), weight the columns by
`weights / np.max(weights)` and rotate by 90 degrees.  The expression
`sampling[0, axis]` requires a rank-2 sampling array and raises an
IndexError on a rank-1 one. -/
noncomputable def persistence_images_emb (G : ℝ → Image → Image)
    (sigma : ℝ) (sampling stepSize : Arr) (weights : List ℚ)
    (diagrams : List Sample) : Except String (List Image) := do
  let bp := diagrams.map fun s => s.map fun pt => (pt.1, pt.2 - pt.1)
  let s00 ← arrGet2 sampling 0 0
  let sL0 ← arrGet2 sampling (arrLen sampling - 1) 0
  let st0 ← arrGet1 stepSize 0
  let s01 ← arrGet2 sampling 0 1
  let sL1 ← arrGet2 sampling (arrLen sampling - 1) 1
  let st1 ← arrGet1 stepSize 1
  let n := arrLen sampling
  let rasters := bp.map fun s =>
    let raster := sample_image n (s.map fun pt =>
      (quantizePoint s00 sL0 st0 pt.1, quantizePoint s01 sL1 st1 pt.2))
    let _conv := G sigma raster
    raster
  let wmax := weights.foldr max 0
  pure (rasters.map fun im =>
    rot90 n (im.map fun row =>
      List.zipWith (fun x w => x * (w / wmax)) row weights))

/-- `persistence_image_distances` (`_metrics.py` lines 145-162):
`sampling_ = np.copy(sampling.reshape((-1,)))` flattens the sampling to
rank 1 before `persistence_images` is called with it, so the
`sampling[0, axis]` access inside always raises; everything past the
first call is unreachable (modelled as the non-short-circuited cdist of
the two image stacks). -/
noncomputable def persistence_image_distances (G : ℝ → Image → Image)
    (p sigma : ℝ) (W : ℚ → ℚ) (sampling stepSize : Arr)
    (d1 d2 : List Sample) : Except String (List (List ℝ)) := do
  let sflat := arrFlatten sampling
  let weights := sflat.map fun x => W (x - sflat.headI)
  let pi1 ← persistence_images_emb G sigma (.rank1 sflat) stepSize
    weights d1
  let pi2 ← persistence_images_emb G sigma (.rank1 sflat) stepSize
    weights d2
  pure (scaleM ((sflat.headI : ℝ) ^ (1 / p))
    (cdistM p (pi1.map flattenCast) (pi2.map flattenCast)))

/-! ## The parallel engines (`_metrics.py` lines 181-208 and 262-281) -/

/-- The six metric names of `implemented_metric_recipes` and
`implemented_amplitude_recipes`. -/
inductive MetricKind where
  | bottleneck
  | wasserstein
  | landscape
  | betti
  | heat
  | persistence_image
deriving DecidableEq

/-- The dictionary key under which each metric is registered. -/
def metricName : MetricKind → String
  | .bottleneck => "bottleneck"
  | .wasserstein => "wasserstein"
  | .landscape => "landscape"
  | .betti => "betti"
  | .heat => "heat"
  | .persistence_image => "persistence_image"

/-- One task of `_parallel_pairwise` (`_metrics.py` lines 194-201): look
up the recipe of `implemented_metric_recipes` for the metric, extract
the per-dimension subdiagrams of the first batch and of the chunk of the
second batch, and call the recipe with the per-dimension sampling and
step size.  `B` and `W` are the external exact matchers, `G` the
external Gaussian filter. -/
noncomputable def recipeFor (kind : MetricKind)
    (B W : List Point → List Point → ℝ) (G : ℝ → Image → Image)
    (p sigma : ℝ) (nLayers : ℕ) (samplings : Option ℚ → List ℚ)
    (samplings2 : Option ℚ → Arr) (stepSizes : Option ℚ → ℚ)
    (stepSizes2 : Option ℚ → Arr) (wf : ℚ → ℚ) (X1 : List RawSample)
    (d : Option ℚ) (c : List RawSample) :
    Except String (List (List ℝ)) :=
  match kind with
  | .bottleneck =>
      .ok (bottleneck_distances B (_subdiagrams d X1) (_subdiagrams d c))
  | .wasserstein =>
      .ok (wasserstein_distances W (_subdiagrams d X1) (_subdiagrams d c))
  | .betti =>
      .ok (betti_distances p (stepSizes d) (samplings d)
        (_subdiagrams d X1) (_subdiagrams d c))
  | .landscape =>
      .ok (landscape_distances p (stepSizes d) (samplings d) nLayers
        (_subdiagrams d X1) (_subdiagrams d c))
  | .heat =>
      .ok (heat_distances G p sigma (stepSizes d) (samplings d)
        (_subdiagrams d X1) (_subdiagrams d c))
  | .persistence_image =>
      persistence_image_distances G p sigma wf (samplings2 d)
        (stepSizes2 d) (_subdiagrams d X1) (_subdiagrams d c)

/-- One task of `_parallel_amplitude` (`_metrics.py` lines 270-276): the
function object looked up in `implemented_amplitude_recipes` is applied
to the chunk's subdiagrams with the per-dimension sampling and step
size. -/
noncomputable def ampRecipeFor (kind : MetricKind) (MN : ℝ → Image → ℝ)
    (G : ℝ → Image → Image) (p sigma : ℝ) (nLayers : ℕ)
    (samplings : Option ℚ → List ℚ) (stepSizes : Option ℚ → ℚ)
    (d : Option ℚ) (c : List RawSample) : Except String (List ℝ) :=
  match implemented_amplitude_recipes (metricName kind) with
  | none => .error "KeyError"
  | some fn =>
      runAmplitude MN G fn p sigma nLayers (samplings d) (stepSizes d)
        (_subdiagrams d c)

/-- `np.concatenate(..., axis=1)` over the chunk results of one
homology dimension. -/
def hconcat : List (List (List ℝ)) → List (List ℝ)
  | [] => []
  | [m] => m
  | m :: rest => List.zipWith (· ++ ·) m (hconcat rest)

/-- The `np.stack(..., axis=2)` step of `_parallel_pairwise` (lines
203-207): entry (i, j, k) of the output is entry (i, j) of the k-th
per-dimension matrix. -/
def stackDims (mats : List (List (List ℝ))) : List (List (List ℝ)) :=
  (List.range mats.headI.length).map fun i =>
    (List.range mats.headI.headI.length).map fun j =>
      mats.map fun m => (m.getD i []).getD j 0

/-- `_parallel_pairwise` (`_metrics.py` lines 181-208) with the chunking
of the second batch's sample axis made explicit: every (dimension,
chunk) task runs the recipe, the chunk results of one dimension are
concatenated along the column axis, and the per-dimension matrices are
stacked along a final dimension axis.  Task errors propagate as the
failure of the whole call. -/
noncomputable def _parallel_pairwise
    (recipe : Option ℚ → List RawSample → Except String (List (List ℝ)))
    (dims : List (Option ℚ)) (chunks : List (List RawSample)) :
    Except String (List (List (List ℝ))) :=
  (dims.mapM fun d => (chunks.mapM (recipe d)).map hconcat).map stackDims

/-- The `reshape(len(homology_dimensions), n).T` step of
`_parallel_amplitude` (lines 278-279). -/
def transposeAmps (rows : List (List ℝ)) : List (List ℝ) :=
  (List.range rows.headI.length).map fun i => rows.map fun r => r.getD i 0

/-- `_parallel_amplitude` (`_metrics.py` lines 262-281) with the
chunking of the sample axis made explicit. -/
noncomputable def _parallel_amplitude
    (recipe : Option ℚ → List RawSample → Except String (List ℝ))
    (dims : List (Option ℚ)) (chunks : List (List RawSample)) :
    Except String (List (List ℝ)) :=
  (dims.mapM fun d => (chunks.mapM (recipe d)).map List.flatten).map
    transposeAmps

/-! ## Chunking invariance of the engines -/

/-- How a per-dimension recipe behaves on nonempty chunks whose samples
satisfy `P`: either every column of the result matrix is a function of
the corresponding chunk sample alone (with a fixed row index list), or
the recipe fails identically on every chunk. -/
inductive ChunkBehavior (P : RawSample → Prop)
    (R : List RawSample → Except String (List (List ℝ))) : Prop where
  | columnwise (rows : List Sample) (entry : Sample → RawSample → ℝ)
      (h : ∀ c, c ≠ [] → (∀ s ∈ c, P s) →
        R c = .ok (rows.map fun r => c.map (entry r))) :
      ChunkBehavior P R
  | constError (e : String) (h : ∀ c, c ≠ [] → R c = .error e) :
      ChunkBehavior P R

/-- The amplitude analogue: either one output scalar per chunk sample,
or an identical failure. -/
inductive AmpChunkBehavior (P : RawSample → Prop)
    (R : List RawSample → Except String (List ℝ)) : Prop where
  | pointwise (col : RawSample → ℝ)
      (h : ∀ c, c ≠ [] → (∀ s ∈ c, P s) → R c = .ok (c.map col)) :
      AmpChunkBehavior P R
  | constError (e : String) (h : ∀ c, c ≠ [] → R c = .error e) :
      AmpChunkBehavior P R

theorem mapM_ok_length {α β : Type} {f : α → Except String β} :
    ∀ {l : List α} {ys : List β}, l.mapM f = .ok ys →
      ys.length = l.length := by
  intro l
  induction l with
  | nil => intro ys h; cases h; rfl
  | cons a t ih =>
    intro ys h
    rw [List.mapM_cons] at h
    cases hfa : f a with
    | error e => rw [hfa] at h; exact Except.noConfusion h
    | ok b =>
      rw [hfa] at h
      cases hmt : t.mapM f with
      | error e =>
        rw [hmt] at h
        exact Except.noConfusion h
      | ok bs =>
        rw [hmt] at h
        cases h
        simp [ih hmt]

theorem mapM_congr_except {α β : Type} (l : List α)
    (f g : α → Except String β) (h : ∀ x ∈ l, f x = g x) :
    l.mapM f = l.mapM g := by
  induction l with
  | nil => rfl
  | cons a t ih =>
    rw [List.mapM_cons, List.mapM_cons, h a (List.mem_cons_self a t),
      ih fun x hx => h x (List.mem_cons_of_mem _ hx)]

theorem mapM_const_error {β : Type}
    {R : List RawSample → Except String β} {e : String}
    (chunks : List (List RawSample)) (hne : chunks ≠ [])
    (hcne : ∀ c ∈ chunks, c ≠ [])
    (h : ∀ c, c ≠ [] → R c = .error e) :
    chunks.mapM R = .error e := by
  cases chunks with
  | nil => exact absurd rfl hne
  | cons c rest =>
    rw [List.mapM_cons, h c (hcne c (List.mem_cons_self c rest))]
    rfl

theorem mapM_hconcat_columnwise {P : RawSample → Prop}
    {R : List RawSample → Except String (List (List ℝ))}
    (rows : List Sample) (entry : Sample → RawSample → ℝ)
    (h : ∀ c, c ≠ [] → (∀ s ∈ c, P s) →
      R c = .ok (rows.map fun r => c.map (entry r))) :
    ∀ (chunks : List (List RawSample)), chunks ≠ [] →
      (∀ c ∈ chunks, c ≠ []) → (∀ s ∈ chunks.flatten, P s) →
      (chunks.mapM R).map hconcat =
        .ok (rows.map fun r => chunks.flatten.map (entry r)) := by
  intro chunks
  induction chunks with
  | nil => intro hne; exact absurd rfl hne
  | cons c rest ih =>
    intro _ hcne hP
    have hc : c ≠ [] := hcne c (List.mem_cons_self c rest)
    have hPc : ∀ s ∈ c, P s := fun s hs =>
      hP s (List.mem_flatten.mpr ⟨c, List.mem_cons_self c rest, hs⟩)
    cases rest with
    | nil =>
      rw [List.mapM_cons, h c hc hPc, List.mapM_nil]
      simp only [List.flatten_cons, List.flatten_nil, List.append_nil]
      rfl
    | cons c2 rest2 =>
      have hrest := ih (by simp)
        (fun x hx => hcne x (List.mem_cons_of_mem _ hx))
        (fun s hs => hP s (by
          rw [List.flatten_cons]
          exact List.mem_append_right _ hs))
      cases hmr : (c2 :: rest2).mapM R with
      | error e =>
        rw [hmr] at hrest
        exact Except.noConfusion hrest
      | ok parts =>
        rw [hmr] at hrest
        have hparts : hconcat parts =
            rows.map fun r => (c2 :: rest2).flatten.map (entry r) := by
          simpa [Except.map] using hrest
        have hplen : parts ≠ [] := by
          have := mapM_ok_length hmr
          intro hnil
          rw [hnil] at this
          simp at this
        rw [List.mapM_cons, h c hc hPc, hmr]
        have hcc : hconcat (((rows.map fun r => c.map (entry r))) :: parts) =
            List.zipWith (· ++ ·) (rows.map fun r => c.map (entry r))
              (hconcat parts) := by
          cases parts with
          | nil => exact absurd rfl hplen
          | cons q qs => rfl
        show Except.map hconcat
          (.ok ((rows.map fun r => c.map (entry r)) :: parts)) = _
        rw [Except.map, hcc, hparts, zipWith_map_same]
        simp only [List.flatten_cons, List.map_append]

theorem mapM_flatten_pointwise {P : RawSample → Prop}
    {R : List RawSample → Except String (List ℝ)}
    (col : RawSample → ℝ)
    (h : ∀ c, c ≠ [] → (∀ s ∈ c, P s) → R c = .ok (c.map col)) :
    ∀ (chunks : List (List RawSample)), chunks ≠ [] →
      (∀ c ∈ chunks, c ≠ []) → (∀ s ∈ chunks.flatten, P s) →
      (chunks.mapM R).map List.flatten =
        .ok (chunks.flatten.map col) := by
  intro chunks
  induction chunks with
  | nil => intro hne; exact absurd rfl hne
  | cons c rest ih =>
    intro _ hcne hP
    have hc : c ≠ [] := hcne c (List.mem_cons_self c rest)
    have hPc : ∀ s ∈ c, P s := fun s hs =>
      hP s (List.mem_flatten.mpr ⟨c, List.mem_cons_self c rest, hs⟩)
    cases rest with
    | nil =>
      rw [List.mapM_cons, h c hc hPc, List.mapM_nil]
      simp [Except.map]
    | cons c2 rest2 =>
      have hrest := ih (by simp)
        (fun x hx => hcne x (List.mem_cons_of_mem _ hx))
        (fun s hs => hP s (by
          rw [List.flatten_cons]
          exact List.mem_append_right _ hs))
      cases hmr : (c2 :: rest2).mapM R with
      | error e =>
        rw [hmr] at hrest
        exact Except.noConfusion hrest
      | ok parts =>
        rw [hmr] at hrest
        have hparts : parts.flatten =
            (c2 :: rest2).flatten.map col := by
          simpa [Except.map] using hrest
        rw [List.mapM_cons, h c hc hPc, hmr]
        show Except.map List.flatten (.ok ((c.map col) :: parts)) = _
        rw [Except.map]
        simp only [List.flatten_cons, hparts, List.map_append]

theorem chunked_pairwise_eq {P : RawSample → Prop}
    {R : List RawSample → Except String (List (List ℝ))}
    (hb : ChunkBehavior P R)
    (chunks chunks' : List (List RawSample))
    (hne : chunks ≠ []) (hne' : chunks' ≠ [])
    (hcne : ∀ c ∈ chunks, c ≠ []) (hcne' : ∀ c ∈ chunks', c ≠ [])
    (hP : ∀ s ∈ chunks.flatten, P s)
    (hJ : chunks.flatten = chunks'.flatten) :
    (chunks.mapM R).map hconcat = (chunks'.mapM R).map hconcat := by
  rcases hb with ⟨rows, entry, h⟩ | ⟨e, h⟩
  · rw [mapM_hconcat_columnwise rows entry h chunks hne hcne hP,
      mapM_hconcat_columnwise rows entry h chunks' hne' hcne'
        (hJ ▸ hP), hJ]
  · rw [mapM_const_error chunks hne hcne h,
      mapM_const_error chunks' hne' hcne' h]

theorem chunked_amplitude_eq {P : RawSample → Prop}
    {R : List RawSample → Except String (List ℝ)}
    (hb : AmpChunkBehavior P R)
    (chunks chunks' : List (List RawSample))
    (hne : chunks ≠ []) (hne' : chunks' ≠ [])
    (hcne : ∀ c ∈ chunks, c ≠ []) (hcne' : ∀ c ∈ chunks', c ≠ [])
    (hP : ∀ s ∈ chunks.flatten, P s)
    (hJ : chunks.flatten = chunks'.flatten) :
    (chunks.mapM R).map List.flatten =
      (chunks'.mapM R).map List.flatten := by
  rcases hb with ⟨col, h⟩ | ⟨e, h⟩
  · rw [mapM_flatten_pointwise col h chunks hne hcne hP,
      mapM_flatten_pointwise col h chunks' hne' hcne' (hJ ▸ hP), hJ]
  · rw [mapM_const_error chunks hne hcne h,
      mapM_const_error chunks' hne' hcne' h]

theorem minkDist_self (p : ℝ) (hp : 1 ≤ p) (x : List ℝ) :
    minkDist p x x = 0 := by
  have hp0 : p ≠ 0 := by linarith
  unfold minkDist
  have hz : List.zipWith (fun a b => |a - b| ^ p) x x =
      x.map fun _ => (0 : ℝ) := by
    induction x with
    | nil => rfl
    | cons a t ih => simp [ih, sub_self, Real.zero_rpow hp0]
  rw [hz]
  have hsum : (x.map fun _ => (0 : ℝ)).sum = 0 :=
    List.sum_eq_zero fun y hy => by
      obtain ⟨_, _, rfl⟩ := List.mem_map.mp hy
      rfl
  rw [hsum, Real.zero_rpow (one_div_ne_zero hp0)]

theorem sqpdistM_eq_cdistM (p : ℝ) (hp : 1 ≤ p) (A : List (List ℝ)) :
    sqpdistM p A = cdistM p A A := by
  unfold sqpdistM cdistM
  apply List.ext_getElem
  · simp
  intro i hi hi'
  simp only [List.getElem_map, List.getElem_enum]
  apply List.ext_getElem
  · simp
  intro j hj hj'
  simp only [List.getElem_map, List.getElem_enum]
  by_cases hij : i = j
  · subst hij
    rw [if_pos rfl, minkDist_self p hp]
  · rw [if_neg hij]

theorem scale_cdist_maps (k p : ℝ) {α β : Type} (v : α → List ℝ)
    (w : β → List ℝ) (A : List α) (Bl : List β) :
    scaleM k (cdistM p (A.map v) (Bl.map w)) =
      A.map fun r => Bl.map fun s => k * minkDist p (v r) (w s) := by
  unfold scaleM cdistM
  rw [List.map_map, List.map_map]
  refine List.map_congr_left fun r _ => ?_
  simp only [Function.comp_apply]
  rw [List.map_map, List.map_map]
  rfl

theorem quantizePoint_clamp (s0 sl step x : ℚ) (h : s0 ≤ sl) :
    quantizePoint s0 sl step (min (max x s0) sl) =
      quantizePoint s0 sl step x := by
  unfold quantizePoint
  rw [max_eq_left (le_min (le_max_right x s0) h),
    min_eq_left (min_le_right (max x s0) sl)]

theorem heatSample_congr_pts (G : ℝ → Image → Image) (sigma : ℝ)
    (s0 sl step : ℚ) (n : ℕ) (s s' : Sample)
    (h : s.map (fun p => (quantizePoint s0 sl step p.1,
        quantizePoint s0 sl step p.2)) =
      s'.map fun p => (quantizePoint s0 sl step p.1,
        quantizePoint s0 sl step p.2)) :
    heatSample G sigma s0 sl step n s =
      heatSample G sigma s0 sl step n s' := by
  unfold heatSample
  rw [h]

theorem heatSample_clamp (G : ℝ → Image → Image) (sigma : ℝ)
    (s0 sl step : ℚ) (n : ℕ) (h : s0 ≤ sl) (s : Sample) :
    heatSample G sigma s0 sl step n (s.map fun pt =>
      (min (max pt.1 s0) sl, min (max pt.2 s0) sl)) =
      heatSample G sigma s0 sl step n s := by
  refine heatSample_congr_pts G sigma s0 sl step n _ s ?_
  rw [List.map_map]
  refine List.map_congr_left fun pt _ => ?_
  simp only [Function.comp_apply]
  rw [quantizePoint_clamp _ _ _ _ h, quantizePoint_clamp _ _ _ _ h]

/-- The per-sample landscape rows, with the batch-level point count
`np` fixing the zero-padding width. -/
def perSampleLand (sampling : List ℚ) (k np : ℕ) (s : Sample) :
    List (List ℚ) :=
  (List.range k).map fun layer => sampling.map fun t =>
    ((sortDesc (tentValues s t)).take k ++
      List.replicate (k - np) 0).getD layer 0

theorem landscapes_eq_map (A : List Sample) (sampling : List ℚ)
    (k : ℕ) :
    landscapes A sampling k =
      A.map (perSampleLand sampling k A.headI.length) := rfl

/-- The real-valued Betti curve of one sample. -/
def bVecR (sampling : List ℚ) (x : Sample) : List ℝ :=
  (sampling.map fun t => x.countP fun q =>
    decide (q.1 ≤ t) && decide (t < q.2)).map fun k => (k : ℝ)

theorem bcurves_cast (A : List Sample) (sampling : List ℚ) :
    (betti_curves A sampling).map (fun c => c.map fun k => (k : ℝ)) =
      A.map (bVecR sampling) := by
  unfold betti_curves bVecR
  rw [List.map_map]
  rfl

theorem subdiagrams_headI_length (d : Option ℚ) (c : List RawSample)
    (nP : ℕ) (hc : c ≠ []) (hP : ∀ s ∈ c, (subSample d s).length = nP) :
    (_subdiagrams d c).headI.length = nP := by
  cases c with
  | nil => exact absurd rfl hc
  | cons s cs => exact hP s (List.mem_cons_self s cs)

/-- Every pairwise metric recipe, as invoked by the engine for one
homology dimension, is either columnwise in the chunk samples (each
column of the chunk's result depends only on the corresponding sample)
or fails identically on every chunk, given p >= 1, an ordered sampling
range and a fixed per-dimension subdiagram point count. -/
theorem recipeFor_behavior (kind : MetricKind)
    (B W : List Point → List Point → ℝ) (G : ℝ → Image → Image)
    (p sigma : ℝ) (nLayers : ℕ) (samplings : Option ℚ → List ℚ)
    (samplings2 : Option ℚ → Arr) (stepSizes : Option ℚ → ℚ)
    (stepSizes2 : Option ℚ → Arr) (wf : ℚ → ℚ) (X1 : List RawSample)
    (d : Option ℚ) (nPts : Option ℚ → ℕ) (hp : 1 ≤ p)
    (hgrid : (samplings d).headI ≤ (samplings d).getLastD 0) :
    ChunkBehavior (fun s => (subSample d s).length = nPts d)
      (recipeFor kind B W G p sigma nLayers samplings samplings2
        stepSizes stepSizes2 wf X1 d) := by
  cases kind with
  | bottleneck =>
    refine .columnwise (_subdiagrams d X1) (fun r s =>
      B (r.filter fun q => decide (q.1 ≠ q.2))
        ((subSample d s).filter fun q => decide (q.1 ≠ q.2))) ?_
    intro c _ _
    show Except.ok (bottleneck_distances B (_subdiagrams d X1)
      (_subdiagrams d c)) = _
    congr 1
    unfold bottleneck_distances _subdiagrams
    refine List.map_congr_left fun r _ => ?_
    rw [List.map_map]
    rfl
  | wasserstein =>
    refine .columnwise (_subdiagrams d X1) (fun r s =>
      W (r.filter fun q => decide (q.1 ≠ q.2))
        ((subSample d s).filter fun q => decide (q.1 ≠ q.2))) ?_
    intro c _ _
    show Except.ok (wasserstein_distances W (_subdiagrams d X1)
      (_subdiagrams d c)) = _
    congr 1
    unfold wasserstein_distances _subdiagrams
    refine List.map_congr_left fun r _ => ?_
    rw [List.map_map]
    rfl
  | betti =>
    refine .columnwise (_subdiagrams d X1) (fun r s =>
      ((stepSizes d : ℚ) : ℝ) ^ (1 / p) *
        minkDist p (bVecR (samplings d) r)
          (bVecR (samplings d) (subSample d s))) ?_
    intro c _ _
    show Except.ok (betti_distances p (stepSizes d) (samplings d)
      (_subdiagrams d X1) (_subdiagrams d c)) = _
    congr 1
    unfold betti_distances
    have hC : (betti_curves (_subdiagrams d c) (samplings d)).map
        (fun cc => cc.map fun k => (k : ℝ)) =
        c.map fun s => bVecR (samplings d) (subSample d s) := by
      rw [bcurves_cast]
      unfold _subdiagrams
      rw [List.map_map]
      rfl
    by_cases heq : _subdiagrams d X1 = _subdiagrams d c
    · rw [if_pos heq, sqpdistM_eq_cdistM p hp, bcurves_cast]
      have hshift : (_subdiagrams d X1).map (bVecR (samplings d)) =
          c.map fun s => bVecR (samplings d) (subSample d s) := by
        rw [heq]
        unfold _subdiagrams
        rw [List.map_map]
        rfl
      nth_rewrite 2 [hshift]
      exact scale_cdist_maps _ p _ _ _ c
    · rw [if_neg heq, bcurves_cast, hC]
      exact scale_cdist_maps _ p _ _ _ c
  | landscape =>
    refine .columnwise (_subdiagrams d X1) (fun r s =>
      ((stepSizes d : ℚ) : ℝ) ^ (1 / p) *
        minkDist p
          (flattenCast (perSampleLand (samplings d)
            (max (min nLayers (_subdiagrams d X1).headI.length)
              (min nLayers (nPts d)))
            (_subdiagrams d X1).headI.length r))
          (flattenCast (perSampleLand (samplings d)
            (max (min nLayers (_subdiagrams d X1).headI.length)
              (min nLayers (nPts d)))
            (nPts d) (subSample d s)))) ?_
    intro c hc hP
    have hlen : (_subdiagrams d c).headI.length = nPts d :=
      subdiagrams_headI_length d c (nPts d) hc hP
    show Except.ok (landscape_distances p (stepSizes d) (samplings d)
      nLayers (_subdiagrams d X1) (_subdiagrams d c)) = _
    congr 1
    unfold landscape_distances
    by_cases heq : _subdiagrams d X1 = _subdiagrams d c
    · have hn1 : (_subdiagrams d X1).headI.length = nPts d := by
        rw [heq]; exact hlen
      rw [if_pos heq, sqpdistM_eq_cdistM p hp, landscapes_eq_map, hn1,
        max_self]
      simp only [List.map_map]
      have hshift : (_subdiagrams d X1).map
          (flattenCast ∘ perSampleLand (samplings d)
            (min nLayers (nPts d)) (nPts d)) =
          c.map fun s => flattenCast (perSampleLand (samplings d)
            (min nLayers (nPts d)) (nPts d) (subSample d s)) := by
        rw [heq]
        unfold _subdiagrams
        rw [List.map_map]
        rfl
      nth_rewrite 2 [hshift]
      rw [scale_cdist_maps]
      rfl
    · rw [if_neg heq]
      simp only [landscapes_eq_map, hlen, List.map_map]
      have hC : (_subdiagrams d c).map
          (flattenCast ∘ perSampleLand (samplings d)
            (max (min nLayers (_subdiagrams d X1).headI.length)
              (min nLayers (nPts d))) (nPts d)) =
          c.map fun s => flattenCast (perSampleLand (samplings d)
            (max (min nLayers (_subdiagrams d X1).headI.length)
              (min nLayers (nPts d))) (nPts d) (subSample d s)) := by
        unfold _subdiagrams
        rw [List.map_map]
        rfl
      rw [hC, scale_cdist_maps]
      rfl
  | heat =>
    refine .columnwise (_subdiagrams d X1) (fun r s =>
      ((stepSizes d : ℚ) : ℝ) ^ (1 / p) *
        minkDist p
          (flattenCast (heatSample G sigma (samplings d).headI
            ((samplings d).getLastD 0) (stepSizes d)
            (samplings d).length r))
          (flattenCast (heatSample G sigma (samplings d).headI
            ((samplings d).getLastD 0) (stepSizes d)
            (samplings d).length (subSample d s)))) ?_
    intro c _ _
    show Except.ok (heat_distances G p sigma (stepSizes d) (samplings d)
      (_subdiagrams d X1) (_subdiagrams d c)) = _
    congr 1
    unfold heat_distances heats
    have hC : ((_subdiagrams d c).map (heatSample G sigma
        (samplings d).headI ((samplings d).getLastD 0) (stepSizes d)
        (samplings d).length)).map flattenCast =
        c.map fun s => flattenCast (heatSample G sigma
          (samplings d).headI ((samplings d).getLastD 0) (stepSizes d)
          (samplings d).length (subSample d s)) := by
      unfold _subdiagrams
      rw [List.map_map, List.map_map]
      rfl
    by_cases heq : clampBatch (samplings d).headI
        ((samplings d).getLastD 0) (_subdiagrams d X1) =
        _subdiagrams d c
    · rw [if_pos heq, sqpdistM_eq_cdistM p hp]
      have hshift : ((_subdiagrams d X1).map (heatSample G sigma
          (samplings d).headI ((samplings d).getLastD 0) (stepSizes d)
          (samplings d).length)).map flattenCast =
          c.map fun s => flattenCast (heatSample G sigma
            (samplings d).headI ((samplings d).getLastD 0)
            (stepSizes d) (samplings d).length (subSample d s)) := by
        rw [← hC, ← heq]
        unfold clampBatch
        rw [List.map_map, List.map_map, List.map_map]
        refine List.map_congr_left fun x _ => ?_
        simp only [Function.comp_apply]
        rw [heatSample_clamp G sigma _ _ _ _ hgrid x]
      nth_rewrite 2 [hshift]
      rw [List.map_map, scale_cdist_maps]
      rfl
    · rw [if_neg heq, hC]
      rw [List.map_map, scale_cdist_maps]
      rfl
  | persistence_image =>
    refine .constError "IndexError: too many indices for array" ?_
    intro c _
    show persistence_image_distances G p sigma wf (samplings2 d)
      (stepSizes2 d) (_subdiagrams d X1) (_subdiagrams d c) = _
    unfold persistence_image_distances persistence_images_emb
    rfl

/-- Every amplitude recipe, as dispatched through
`implemented_amplitude_recipes` by the engine, is either pointwise in
the chunk samples or fails identically on every chunk. -/
theorem ampRecipeFor_behavior (kind : MetricKind) (MN : ℝ → Image → ℝ)
    (G : ℝ → Image → Image) (p sigma : ℝ) (nLayers : ℕ)
    (samplings : Option ℚ → List ℚ) (stepSizes : Option ℚ → ℚ)
    (d : Option ℚ) (nPts : Option ℚ → ℕ) :
    AmpChunkBehavior (fun s => (subSample d s).length = nPts d)
      (ampRecipeFor kind MN G p sigma nLayers samplings stepSizes d) := by
  cases kind with
  | bottleneck =>
    refine .pointwise (fun s => ((subSample d s).map fun pt =>
      |Real.sqrt 2 / 2 * (((pt.2 : ℚ) : ℝ) - ((pt.1 : ℚ) : ℝ))|).foldr
        max 0) ?_
    intro c _ _
    show Except.ok (bottleneck_amplitudes (_subdiagrams d c)) = _
    congr 1
    unfold bottleneck_amplitudes _subdiagrams
    rw [List.map_map]
    rfl
  | wasserstein =>
    refine .pointwise (fun s => pnorm p ((subSample d s).map fun pt =>
      Real.sqrt 2 / 2 * (((pt.2 : ℚ) : ℝ) - ((pt.1 : ℚ) : ℝ)))) ?_
    intro c _ _
    show Except.ok (wasserstein_amplitudes p (_subdiagrams d c)) = _
    congr 1
    unfold wasserstein_amplitudes _subdiagrams
    rw [List.map_map]
    rfl
  | landscape =>
    refine .pointwise (fun s =>
      ((stepSizes d : ℚ) : ℝ) ^ (1 / p) *
        pnorm p ((perSampleLand (samplings d) nLayers (nPts d)
          (subSample d s)).flatten.map fun q => (q : ℝ))) ?_
    intro c hc hP
    have hlen := subdiagrams_headI_length d c (nPts d) hc hP
    show Except.ok (landscape_amplitudes p (stepSizes d) nLayers
      (_subdiagrams d c) (samplings d)) = _
    congr 1
    unfold landscape_amplitudes
    rw [landscapes_eq_map, hlen]
    unfold _subdiagrams
    rw [List.map_map, List.map_map]
    rfl
  | betti =>
    refine .pointwise (fun s =>
      ((stepSizes d : ℚ) : ℝ) ^ (1 / p) *
        pnorm p (bVecR (samplings d) (subSample d s))) ?_
    intro c _ _
    show Except.ok (betti_amplitudes p (stepSizes d) (_subdiagrams d c)
      (samplings d)) = _
    congr 1
    unfold betti_amplitudes betti_curves bVecR _subdiagrams
    rw [List.map_map, List.map_map]
    rfl
  | heat =>
    refine .pointwise (fun s => MN p (heatSample G sigma
      (samplings d).headI ((samplings d).getLastD 0) (stepSizes d)
      (samplings d).length (subSample d s))) ?_
    intro c _ _
    show Except.ok (heat_amplitudes MN G p sigma (stepSizes d)
      (_subdiagrams d c) (samplings d)) = _
    congr 1
    unfold heat_amplitudes heats _subdiagrams
    rw [List.map_map, List.map_map]
    rfl
  | persistence_image =>
    refine .constError
      "TypeError: persistence_images() got an unexpected keyword argument"
      ?_
    intro c _
    rfl

/-- C8: for every metric and parameter set (p >= 1, ordered sampling
ranges, a fixed per-dimension subdiagram point count, and arbitrary
external matchers, filter and matrix norm), the parallel
pairwise-distance engine and the parallel amplitude engine produce the
same result for any two ways of slicing the second (resp. only) batch's
sample axis into nonempty chunks -- in particular for every worker
count, since `gen_even_slices` always yields contiguous nonempty slices
covering the batch in order. -/
theorem parallel_engines_chunking_invariant (kind : MetricKind)
    (B W : List Point → List Point → ℝ) (MN : ℝ → Image → ℝ)
    (G : ℝ → Image → Image) (p sigma : ℝ) (nLayers : ℕ)
    (samplings : Option ℚ → List ℚ) (samplings2 : Option ℚ → Arr)
    (stepSizes : Option ℚ → ℚ) (stepSizes2 : Option ℚ → Arr)
    (wf : ℚ → ℚ) (X1 : List RawSample) (dims : List (Option ℚ))
    (nPts : Option ℚ → ℕ) (chunks chunks' : List (List RawSample))
    (hp : 1 ≤ p)
    (hgrid : ∀ d ∈ dims,
      (samplings d).headI ≤ (samplings d).getLastD 0)
    (hrect : ∀ d ∈ dims, ∀ s ∈ chunks.flatten,
      (subSample d s).length = nPts d)
    (hne : chunks ≠ []) (hne' : chunks' ≠ [])
    (hcne : ∀ c ∈ chunks, c ≠ []) (hcne' : ∀ c ∈ chunks', c ≠ [])
    (hJ : chunks.flatten = chunks'.flatten) :
    _parallel_pairwise (recipeFor kind B W G p sigma nLayers samplings
        samplings2 stepSizes stepSizes2 wf X1) dims chunks =
      _parallel_pairwise (recipeFor kind B W G p sigma nLayers samplings
        samplings2 stepSizes stepSizes2 wf X1) dims chunks' ∧
    _parallel_amplitude (ampRecipeFor kind MN G p sigma nLayers samplings
        stepSizes) dims chunks =
      _parallel_amplitude (ampRecipeFor kind MN G p sigma nLayers
        samplings stepSizes) dims chunks' := by
  constructor
  · unfold _parallel_pairwise
    congr 1
    refine mapM_congr_except dims _ _ fun d hd => ?_
    exact chunked_pairwise_eq
      (recipeFor_behavior kind B W G p sigma nLayers samplings samplings2
        stepSizes stepSizes2 wf X1 d nPts hp (hgrid d hd))
      chunks chunks' hne hne' hcne hcne' (hrect d hd) hJ
  · unfold _parallel_amplitude
    congr 1
    refine mapM_congr_except dims _ _ fun d hd => ?_
    exact chunked_amplitude_eq
      (ampRecipeFor_behavior kind MN G p sigma nLayers samplings
        stepSizes d nPts)
      chunks chunks' hne hne' hcne hcne' (hrect d hd) hJ

/-- Closed instance of C8: for the Betti metric, a two-sample batch
split into two one-sample chunks or kept as one chunk gives the same
engine outputs. -/
theorem parallel_engines_chunking_invariant_witness :
    _parallel_pairwise (recipeFor .betti (fun _ _ => 0) (fun _ _ => 0)
        (fun _ im => im) 2 1 1 (fun _ => [0, 1])
        (fun _ => .rank2 [[0, 0], [1, 1]]) (fun _ => 1)
        (fun _ => .rank1 [1, 1]) id [[(0, 1, some 0)]])
      [some 0] [[[(0, 1, some 0)]], [[(0, 1, some 0)]]] =
    _parallel_pairwise (recipeFor .betti (fun _ _ => 0) (fun _ _ => 0)
        (fun _ im => im) 2 1 1 (fun _ => [0, 1])
        (fun _ => .rank2 [[0, 0], [1, 1]]) (fun _ => 1)
        (fun _ => .rank1 [1, 1]) id [[(0, 1, some 0)]])
      [some 0] [[[(0, 1, some 0)], [(0, 1, some 0)]]] ∧
    _parallel_amplitude (ampRecipeFor .betti (fun _ _ => 0)
        (fun _ im => im) 2 1 1 (fun _ => [0, 1]) (fun _ => 1))
      [some 0] [[[(0, 1, some 0)]], [[(0, 1, some 0)]]] =
    _parallel_amplitude (ampRecipeFor .betti (fun _ _ => 0)
        (fun _ im => im) 2 1 1 (fun _ => [0, 1]) (fun _ => 1))
      [some 0] [[[(0, 1, some 0)], [(0, 1, some 0)]]] :=
  parallel_engines_chunking_invariant .betti (fun _ _ => 0)
    (fun _ _ => 0) (fun _ _ => 0) (fun _ im => im) 2 1 1
    (fun _ => [0, 1]) (fun _ => .rank2 [[0, 0], [1, 1]]) (fun _ => 1)
    (fun _ => .rank1 [1, 1]) id [[(0, 1, some 0)]] [some 0]
    (fun _ => 1) [[[(0, 1, some 0)]], [[(0, 1, some 0)]]]
    [[[(0, 1, some 0)], [(0, 1, some 0)]]]
    (by norm_num) (by intro d hd; fin_cases hd; decide)
    (by intro d hd s hs; fin_cases hd <;> fin_cases hs <;> decide)
    (by decide) (by decide) (by decide) (by decide) (by decide)

end Gtda
